import Mathlib

/-!
Verification of the wildcard-aware hostname matching engine from
`pilot/pkg/model/radix.go` (type `radix`) and its near-duplicate
`reverseRadix` variant.

The matcher stores opaque configs under canonical keys (hostname with the
wildcard marker removed and its characters reversed) in an immutable radix
tree, and answers lookups with the set of most specific matching configs.

Modelling choices:
* Go strings and `[]byte` keys are modelled as `String` and `List Char`.
* The external immutable radix tree (`github.com/hashicorp/go-immutable-radix`)
  is modelled as an association list with unique-key insert; its three
  operations used by the matcher — `Insert`, `Root().WalkPrefix`,
  `Root().LongestPrefix` — are `storeInsert`, `walkPrefixEntries`,
  `longestPrefixEntry`.  `LongestPrefix` on a miss returns
  `(nil, nil, false)`; the Go callers type-assert the `nil` value to the
  zero `Config`, which the model returns directly.
* Go's `map[Hostname]Config` result is an association list with
  assignment-overwrite semantics (`mapInsert`); map identity is captured by
  `findVal` together with the entry count.
* The in-place byte-swap loop `reverse` is modelled by `List.reverse`, and
  `strings.Replace(s, "*", "", -1)` by the recursive `removeStar`.
-/

namespace Istio

/-- The opaque configuration record (`model.Config`); only its identity
matters to the matcher, carried here by the `ConfigMeta.Name` field used in
the tests.  The Go zero value is `Config.zero`. -/
structure Config where
  name : String
deriving DecidableEq, Repr

/-- The zero `Config`, produced by a failed type assertion `v.(Config)`
when `v` is `nil`. -/
def Config.zero : Config := ⟨""⟩

/-- A radix-tree key: the byte sequence produced by `toKey`. -/
abbrev Key := List Char

/-- The immutable radix tree, as the matcher observes it: a finite map from
keys to configs, modelled as an association list with unique keys. -/
abbrev Store := List (Key × Config)

/-- The Go result map `map[Hostname]Config`, as an association list with
unique keys. -/
abbrev Result := List (String × Config)

/-- `iradix.Tree.Insert`: replace the config under an existing key,
otherwise add a new entry. -/
def storeInsert : Store → Key → Config → Store
  | [], k, v => [(k, v)]
  | (k', v') :: rest, k, v =>
    if k' = k then (k, v) :: rest else (k', v') :: storeInsert rest k v

/-- Association-list lookup in the store (the map a radix tree denotes). -/
def storeFind : Store → Key → Option Config
  | [], _ => none
  | (k', v') :: rest, k => if k' = k then some v' else storeFind rest k

/-- `iradix` `Root().WalkPrefix p`: all entries whose key has `p` as a
prefix (the callback never stops early, so the walk is exhaustive). -/
def walkPrefixEntries (s : Store) (p : Key) : Store :=
  s.filter fun e => p.isPrefixOf e.1

/-- `iradix` `Root().LongestPrefix q`: the entry whose key is the longest
stored prefix of `q`, with a `found` flag; on a miss it returns
`(nil, nil, false)`, i.e. the empty key and (after the callers' type
assertion) the zero config. -/
def longestPrefixEntry : Store → Key → Key × Config × Bool
  | [], _ => ([], Config.zero, false)
  | (k, v) :: rest, q =>
    let t := longestPrefixEntry rest q
    if k.isPrefixOf q && (!t.2.2 || decide (t.1.length < k.length)) then
      (k, v, true)
    else t

/-- Go map assignment `m[h] = c`: overwrite the entry under `h` if present,
otherwise add it. -/
def mapInsert : Result → String → Config → Result
  | [], h, c => [(h, c)]
  | (h', c') :: rest, h, c =>
    if h' = h then (h, c) :: rest else (h', c') :: mapInsert rest h c

/-- Go map read `m[h]`: the config under `h`, if any. -/
def findVal : Result → String → Option Config
  | [], _ => none
  | (h', c') :: rest, h => if h' = h then some c' else findVal rest h

/-- `strings.Replace(s, "*", "", -1)` on the character sequence: remove
every occurrence of the wildcard marker. -/
def removeStar : List Char → List Char
  | [] => []
  | c :: rest => if c = '*' then removeStar rest else c :: removeStar rest

namespace radix

/-- `radix.toKey`: strip the wildcard character `'*'` and reverse the
character order (the in-place swap loop `reverse` is `List.reverse`). -/
def toKey (hostname : String) : Key :=
  (removeStar hostname.toList).reverse

/-- `radix.fromKey`: un-reverse a stored key back into a hostname. -/
def fromKey (key : Key) : String :=
  key.reverse.asString

/-- `radix.Lookup`: the two-phase most-specific-match lookup.  If the query
contains a wildcard, walk every entry under the query's encoded key; if the
query has no wildcard, or the walk collected nothing, fall back to the
longest-prefix entry (whose `found` flag is discarded, as in the source). -/
def Lookup (r : Store) (hostname : String) : Result :=
  let wildcard : Bool := hostname.toList.contains '*'
  let configs : Result :=
    if wildcard then
      (walkPrefixEntries r (toKey hostname)).foldl
        (fun m e => mapInsert m (fromKey e.1) e.2) []
    else []
  if !wildcard || configs.length == 0 then
    let t := longestPrefixEntry r (toKey hostname)
    mapInsert configs (fromKey t.1) t.2.1
  else configs

/-- `radix.Insert`: encode the pattern and insert into the store, making
the new tree version current. -/
def Insert (r : Store) (hostname : String) (config : Config) : Store :=
  storeInsert r (toKey hostname) config

/-- The store produced by a sequence of `Insert` calls on a fresh matcher
(`newRadix`). -/
def buildStore (ops : List (String × Config)) : Store :=
  ops.foldl (fun s pc => Insert s pc.1 pc.2) []

end radix

namespace reverseRadix

/-- `reverseRadix.toKey`: removes the wildcard, reverses. -/
def toKey (hostname : String) : Key :=
  (removeStar hostname.toList).reverse

/-- `reverseRadix.fromKey`: unreverses. -/
def fromKey (key : Key) : String :=
  key.reverse.asString

/-- `reverseRadix.Lookup`: the same two-phase lookup as `radix.Lookup`. -/
def Lookup (r : Store) (hostname : String) : Result :=
  let wildcard : Bool := hostname.toList.contains '*'
  let configs : Result :=
    if wildcard then
      (walkPrefixEntries r (toKey hostname)).foldl
        (fun m e => mapInsert m (fromKey e.1) e.2) []
    else []
  if !wildcard || configs.length == 0 then
    let t := longestPrefixEntry r (toKey hostname)
    mapInsert configs (fromKey t.1) t.2.1
  else configs

/-- `reverseRadix.Insert`: encode and insert. -/
def Insert (r : Store) (hostname : String) (config : Config) : Store :=
  storeInsert r (toKey hostname) config

/-- The store produced by a sequence of `reverseRadix.Insert` calls on a
fresh matcher (`newReverseRadix`). -/
def buildStore (ops : List (String × Config)) : Store :=
  ops.foldl (fun s pc => Insert s pc.1 pc.2) []

end reverseRadix

/-- The two-phase lookup policy in the spec's words: the wildcard walk
contributes `{decode(key): config}` for every stored entry under the
query's encoded key; when the query has no wildcard or that walk produced
zero entries, the longest-prefix step contributes the single
`{decode(matchedKey): config}` entry; the result is the union of the two. -/
def policyEntries (r : Store) (q : String) : Result :=
  let wildcard : Bool := q.toList.contains '*'
  let walked : Result :=
    if wildcard then
      (walkPrefixEntries r (radix.toKey q)).map fun e => (radix.fromKey e.1, e.2)
    else []
  let fallback : Result :=
    if !wildcard || walked.isEmpty then
      [(radix.fromKey (longestPrefixEntry r (radix.toKey q)).1,
        (longestPrefixEntry r (radix.toKey q)).2.1)]
    else []
  walked ++ fallback

/-- Config A of the test registry (`ConfigMeta{Name: "cnn"}`). -/
def cfgA : Config := ⟨"cnn"⟩

/-- Config B of the test registry (`ConfigMeta{Name: "edition_cnn"}`). -/
def cfgB : Config := ⟨"edition_cnn"⟩

/-- Config C of the test registry (`ConfigMeta{Name: "*.co.uk"}`). -/
def cfgC : Config := ⟨"*.co.uk"⟩

/-- Config D of the test registry (`ConfigMeta{Name: "*"}`). -/
def cfgD : Config := ⟨"*"⟩

/-- Config E of the test registry (`ConfigMeta{Name: "io"}`). -/
def cfgE : Config := ⟨"io"⟩

/-- Config F of the test registry (`ConfigMeta{Name: "*.preliminary.io"}`). -/
def cfgF : Config := ⟨"*.preliminary.io"⟩

/-- The registry of section 8 of the spec / `TestRadix`, inserted in the
test's order. -/
def registry : Store :=
  radix.buildStore
    [("www.cnn.com", cfgA), ("*.cnn.com", cfgA), ("*.com", cfgA),
     ("edition.cnn.com", cfgB), ("*.co.uk", cfgC), ("*", cfgD),
     ("*.io", cfgE), ("*.preliminary.io", cfgF)]

/-- A client operation on the matcher: an `Insert` or a `Lookup` call. -/
inductive Op where
  | ins : String → Config → Op
  | look : String → Op

/-- The store after running a sequence of operations: `Insert` swaps in the
new tree version; `Lookup` only reads `r.radix` and never assigns it. -/
def runStore : Store → List Op → Store
  | s, [] => s
  | s, Op.ins p c :: rest => runStore (radix.Insert s p c) rest
  | s, Op.look _ :: rest => runStore s rest

/-- The results observed while running a sequence of operations (one list
entry per `Lookup` call). -/
def run : Store → List Op → List Result
  | _, [] => []
  | s, Op.ins p c :: rest => run (radix.Insert s p c) rest
  | s, Op.look q :: rest => radix.Lookup s q :: run s rest

/-! ### Lemmas about the codec -/

theorem removeStar_eq_filter (l : List Char) :
    removeStar l = l.filter (fun c => c != '*') := by
  induction l with
  | nil => rfl
  | cons c rest ih =>
    by_cases hc : c = '*'
    · subst hc; simp [removeStar, ih]
    · simp [removeStar, hc, ih, bne_iff_ne]

theorem star_not_mem_removeStar (l : List Char) : '*' ∉ removeStar l := by
  rw [removeStar_eq_filter]
  intro hmem
  have := List.of_mem_filter hmem
  simp at this

theorem removeStar_eq_self {l : List Char} (h : '*' ∉ l) : removeStar l = l := by
  induction l with
  | nil => rfl
  | cons c rest ih =>
    simp only [List.mem_cons, not_or] at h
    simp [removeStar, Ne.symm h.1, ih h.2]

theorem star_not_mem_toKey (h : String) : '*' ∉ radix.toKey h := by
  unfold radix.toKey
  rw [List.mem_reverse]
  exact star_not_mem_removeStar _

theorem toKey_fromKey {k : Key} (hk : '*' ∉ k) :
    radix.toKey (radix.fromKey k) = k := by
  unfold radix.toKey radix.fromKey
  rw [List.toList_asString, removeStar_eq_self (by simpa using hk),
    List.reverse_reverse]

theorem fromKey_injective : Function.Injective radix.fromKey := by
  intro k₁ k₂ hk
  unfold radix.fromKey at hk
  rw [List.asString_inj] at hk
  exact List.reverse_injective hk

theorem fromKey_no_star {k : Key} (hk : '*' ∉ k) :
    (radix.fromKey k).toList.contains '*' = false := by
  unfold radix.fromKey
  rw [List.toList_asString]
  simpa using hk

/-! ### Lemmas about the result-map assignment -/

theorem mapInsert_ne_nil (m : Result) (h : String) (c : Config) :
    mapInsert m h c ≠ [] := by
  cases m with
  | nil => simp [mapInsert]
  | cons e rest =>
    unfold mapInsert
    split <;> simp

theorem mapInsert_of_not_mem {m : Result} {h : String} (c : Config)
    (hm : h ∉ m.map Prod.fst) : mapInsert m h c = m ++ [(h, c)] := by
  induction m with
  | nil => rfl
  | cons e rest ih =>
    simp only [List.map_cons, List.mem_cons, not_or] at hm
    unfold mapInsert
    rw [if_neg (fun hc => hm.1 hc.symm), ih hm.2]
    rfl

theorem foldl_mapInsert (l : Result) (acc : Result)
    (hnd : (l.map Prod.fst).Nodup)
    (hdisj : ∀ x ∈ l.map Prod.fst, x ∉ acc.map Prod.fst) :
    l.foldl (fun m e => mapInsert m e.1 e.2) acc = acc ++ l := by
  induction l generalizing acc with
  | nil => simp
  | cons e rest ih =>
    simp only [List.map_cons, List.nodup_cons] at hnd
    have hnotacc : e.1 ∉ acc.map Prod.fst := hdisj e.1 (by simp)
    simp only [List.foldl_cons]
    rw [mapInsert_of_not_mem e.2 hnotacc, ih (acc ++ [e]) hnd.2]
    · simp
    · intro x hx
      rw [List.map_append, List.mem_append]
      rintro (hxa | hxe)
      · exact hdisj x (by simp [hx]) hxa
      · have hxk : x = e.1 := by simpa using hxe
        exact hnd.1 (hxk ▸ hx)

/-! ### Lemmas about the store -/

theorem keys_storeInsert_of_mem {s : Store} {k : Key} (v : Config)
    (hk : k ∈ s.map Prod.fst) :
    (storeInsert s k v).map Prod.fst = s.map Prod.fst := by
  induction s with
  | nil => simp at hk
  | cons e rest ih =>
    unfold storeInsert
    by_cases he : e.1 = k
    · rw [if_pos he]; simp [he]
    · rw [if_neg he]
      simp only [List.map_cons, List.mem_cons] at hk
      rcases hk with hk | hk
      · exact absurd hk.symm he
      · simp [ih hk]

theorem keys_storeInsert_of_not_mem {s : Store} {k : Key} (v : Config)
    (hk : k ∉ s.map Prod.fst) :
    (storeInsert s k v).map Prod.fst = s.map Prod.fst ++ [k] := by
  induction s with
  | nil => rfl
  | cons e rest ih =>
    simp only [List.map_cons, List.mem_cons, not_or] at hk
    unfold storeInsert
    rw [if_neg (fun hc => hk.1 hc.symm)]
    simp [ih hk.2]

theorem nodup_keys_storeInsert {s : Store} (k : Key) (v : Config)
    (hs : (s.map Prod.fst).Nodup) :
    ((storeInsert s k v).map Prod.fst).Nodup := by
  by_cases hk : k ∈ s.map Prod.fst
  · rw [keys_storeInsert_of_mem v hk]; exact hs
  · rw [keys_storeInsert_of_not_mem v hk, List.nodup_append]
    refine ⟨hs, List.nodup_singleton k, ?_⟩
    intro a ha hb
    have : a = k := by simpa using hb
    exact hk (this ▸ ha)

theorem storeFind_storeInsert_self (s : Store) (k : Key) (v : Config) :
    storeFind (storeInsert s k v) k = some v := by
  induction s with
  | nil => simp [storeInsert, storeFind]
  | cons e rest ih =>
    unfold storeInsert
    by_cases he : e.1 = k
    · rw [if_pos he]; simp [storeFind]
    · rw [if_neg he]
      unfold storeFind
      rw [if_neg he]
      exact ih

theorem storeFind_mem {s : Store} {k : Key} {v : Config}
    (h : storeFind s k = some v) : (k, v) ∈ s := by
  induction s with
  | nil => simp [storeFind] at h
  | cons e rest ih =>
    unfold storeFind at h
    by_cases he : e.1 = k
    · rw [if_pos he] at h
      rcases e with ⟨ek, ev⟩
      simp only at he h
      rw [Option.some_inj] at h
      subst he h
      exact List.mem_cons_self _ _
    · rw [if_neg he] at h
      exact List.mem_cons_of_mem _ (ih h)

theorem storeInsert_cons (ek : Key) (ev : Config) (rest : Store) (k : Key)
    (v : Config) :
    storeInsert ((ek, ev) :: rest) k v =
      if ek = k then (k, v) :: rest else (ek, ev) :: storeInsert rest k v :=
  rfl

theorem storeInsert_idem (s : Store) (k : Key) (v : Config) :
    storeInsert (storeInsert s k v) k v = storeInsert s k v := by
  induction s with
  | nil => simp [storeInsert, storeInsert_cons]
  | cons e rest ih =>
    rcases e with ⟨ek, ev⟩
    rw [storeInsert_cons]
    by_cases he : ek = k
    · rw [if_pos he, storeInsert_cons, if_pos rfl]
    · rw [if_neg he, storeInsert_cons, if_neg he, ih]

theorem nodup_keys_foldl {ops : List (String × Config)} :
    ∀ {s : Store}, (s.map Prod.fst).Nodup →
      ((ops.foldl (fun s pc => radix.Insert s pc.1 pc.2) s).map Prod.fst).Nodup := by
  induction ops with
  | nil => intro s hs; simpa using hs
  | cons pc rest ih =>
    intro s hs
    exact ih (nodup_keys_storeInsert _ _ hs)

theorem nodup_keys_buildStore (ops : List (String × Config)) :
    ((radix.buildStore ops).map Prod.fst).Nodup :=
  nodup_keys_foldl List.nodup_nil

/-! ### Lemmas about the longest-prefix operation -/

theorem isPrefixOf_true_iff {l₁ l₂ : Key} :
    l₁.isPrefixOf l₂ = true ↔ l₁ <+: l₂ :=
  List.isPrefixOf_iff_prefix

theorem lpe_found_mem {s : Store} {q : Key}
    (hf : (longestPrefixEntry s q).2.2 = true) :
    ((longestPrefixEntry s q).1, (longestPrefixEntry s q).2.1) ∈ s ∧
      (longestPrefixEntry s q).1 <+: q := by
  induction s with
  | nil => simp [longestPrefixEntry] at hf
  | cons e rest ih =>
    rcases e with ⟨k, v⟩
    unfold longestPrefixEntry at hf ⊢
    by_cases hc :
        (k.isPrefixOf q && (!(longestPrefixEntry rest q).2.2 ||
          decide ((longestPrefixEntry rest q).1.length < k.length))) = true
    · rw [if_pos hc] at hf ⊢
      have hp : k.isPrefixOf q = true := by
        simp only [Bool.and_eq_true] at hc
        exact hc.1
      exact ⟨List.mem_cons_self _ _, isPrefixOf_true_iff.mp hp⟩
    · rw [if_neg hc] at hf ⊢
      exact ⟨List.mem_cons_of_mem _ (ih hf).1, (ih hf).2⟩

theorem lpe_self {s : Store} {k : Key} {v : Config}
    (hs : (s.map Prod.fst).Nodup) (hfind : storeFind s k = some v) :
    longestPrefixEntry s k = (k, v, true) := by
  induction s with
  | nil => simp [storeFind] at hfind
  | cons e rest ih =>
    rcases e with ⟨ek, ev⟩
    simp only [List.map_cons, List.nodup_cons] at hs
    unfold storeFind at hfind
    by_cases he : ek = k
    · simp only [if_pos he, Option.some_inj] at hfind
      subst he hfind
      unfold longestPrefixEntry
      have hrefl : ek.isPrefixOf ek = true :=
        isPrefixOf_true_iff.mpr (List.prefix_refl ek)
      by_cases ht : (longestPrefixEntry rest ek).2.2 = true
      · have hmem := lpe_found_mem ht
        have hne : (longestPrefixEntry rest ek).1 ≠ ek := by
          intro hcon
          exact hs.1 (hcon ▸ List.mem_map_of_mem Prod.fst hmem.1)
        have hlt : (longestPrefixEntry rest ek).1.length < ek.length := by
          rcases Nat.lt_or_ge (longestPrefixEntry rest ek).1.length ek.length
            with h | h
          · exact h
          · exact absurd (hmem.2.eq_of_length
              (Nat.le_antisymm hmem.2.length_le h)) hne
        rw [if_pos (by simp [hrefl, hlt])]
      · have ht' : (longestPrefixEntry rest ek).2.2 = false :=
          Bool.eq_false_iff.mpr ht
        rw [if_pos (by simp [hrefl, ht'])]
    · rw [if_neg he] at hfind
      have hrest := ih hs.2 hfind
      unfold longestPrefixEntry
      rw [hrest]
      simp only
      by_cases hp : ek.isPrefixOf k = true
      · have hple := (isPrefixOf_true_iff.mp hp).length_le
        rw [if_neg]
        simp only [Bool.and_eq_true, Bool.or_eq_true]
        rintro ⟨-, hbad | hbad⟩
        · simp at hbad
        · have : k.length < ek.length := of_decide_eq_true hbad
          omega
      · rw [if_neg]
        simp only [Bool.and_eq_true]
        rintro ⟨hbad, -⟩
        exact hp hbad

/-! ### Claims -/

/-- C8: `toKey` removes every occurrence of the wildcard marker `'*'` from
the input — wherever it occurs, not only in a leading label — and then
reverses the remaining character sequence; it is total on arbitrary
strings (no validation, no failure). -/
theorem c8_toKey_strips_and_reverses (s : String) :
    radix.toKey s = (s.toList.filter fun c => c != '*').reverse ∧
      '*' ∉ radix.toKey s :=
  ⟨by rw [radix.toKey, removeStar_eq_filter], star_not_mem_toKey s⟩

/-- C3: the key codec round-trips — for every hostname without the
wildcard marker `'*'`, decoding the encoding yields the hostname
unchanged: `fromKey (toKey h) = h`. -/
theorem c3_codec_round_trip (h : String) (hw : '*' ∉ h.toList) :
    radix.fromKey (radix.toKey h) = h := by
  unfold radix.toKey radix.fromKey
  rw [List.reverse_reverse, removeStar_eq_self hw, String.asString_toList]

/-- Witness for C3 at the concrete hostname `"www.cnn.com"`. -/
theorem c3_witness :
    radix.fromKey (radix.toKey "www.cnn.com") = "www.cnn.com" :=
  c3_codec_round_trip "www.cnn.com" (by decide)

/-- C4: a lookup against the completely empty store returns exactly one
entry, keyed by the empty string and carrying the zero config — the
`found` flag of the longest-prefix call is never consulted. -/
theorem c4_empty_store_lookup (q : String) :
    radix.Lookup ([] : Store) q = [("", Config.zero)] := by
  unfold radix.Lookup
  cases hq : q.toList.contains '*' <;>
    simp [hq, walkPrefixEntries, longestPrefixEntry, mapInsert,
      radix.fromKey, String.asString_nil]

/-- C6: `Insert` is observationally idempotent — for every store state,
pattern and config, inserting the pair twice leaves every subsequent
`Lookup` result identical to inserting it once. -/
theorem c6_insert_idempotent (s : Store) (p : String) (c : Config)
    (q : String) :
    radix.Lookup (radix.Insert (radix.Insert s p c) p c) q =
      radix.Lookup (radix.Insert s p c) q := by
  unfold radix.Insert
  rw [storeInsert_idem]

/-- C9 (implicit): for every store state and query, `Lookup` never returns
an empty map, and a query without the wildcard marker yields exactly one
entry. -/
theorem c9_lookup_nonempty (s : Store) (q : String) :
    radix.Lookup s q ≠ [] ∧
      (q.toList.contains '*' = false → (radix.Lookup s q).length = 1) := by
  unfold radix.Lookup
  cases hq : q.toList.contains '*' with
  | false =>
    simp only [hq, Bool.false_eq_true, if_false, Bool.not_false,
      Bool.true_or, if_true]
    exact ⟨by simp [mapInsert], fun _ => by simp [mapInsert]⟩
  | true =>
    simp only [hq, Bool.true_eq_false, if_true, Bool.not_true,
      Bool.false_or]
    refine ⟨?_, fun hcon => by simp at hcon⟩
    by_cases hlen :
        (((walkPrefixEntries s (radix.toKey q)).foldl
          (fun m e => mapInsert m (radix.fromKey e.1) e.2) []).length == 0)
          = true
    · rw [if_pos hlen]
      exact mapInsert_ne_nil _ _ _
    · rw [if_neg hlen]
      intro hnil
      simp [hnil] at hlen

/-- Witness for C9 at the concrete store `registry` and the wildcard-free
query `"www.cnn.com"`. -/
theorem c9_witness : (radix.Lookup registry "www.cnn.com").length = 1 :=
  (c9_lookup_nonempty registry "www.cnn.com").2 (by decide)

/-- C10 (implicit): `Lookup` is read-only — running a `Lookup` call leaves
the matcher's store unchanged, so the results of all subsequent `Insert`
and `Lookup` calls are exactly those obtained without it. -/
theorem c10_lookup_read_only (s : Store) (q : String) (post : List Op) :
    runStore s (Op.look q :: post) = runStore s post ∧
      run s (Op.look q :: post) = radix.Lookup s q :: run s post :=
  ⟨rfl, rfl⟩

/-- C1: `Lookup` implements the two-phase policy — the wildcard walk adds
`{decode(key): config}` for every entry under the query's encoded key, the
longest-prefix fallback (taken when the query has no wildcard or the walk
was empty) adds its single entry, and the result is exactly the union of
the two steps (`policyEntries`).  Stated for stores with unique keys, the
invariant every reachable store satisfies. -/
theorem c1_lookup_two_phase (r : Store) (q : String)
    (hr : (r.map Prod.fst).Nodup) :
    radix.Lookup r q = policyEntries r q := by
  simp only [radix.Lookup, policyEntries]
  cases hq : q.toList.contains '*' with
  | false => simp [hq, mapInsert]
  | true =>
    simp only [hq, if_true, Bool.not_true, Bool.false_or]
    have hnd : (((walkPrefixEntries r (radix.toKey q)).map
        fun e => (radix.fromKey e.1, e.2)).map Prod.fst).Nodup := by
      have hkeys : ((walkPrefixEntries r (radix.toKey q)).map
          fun e => (radix.fromKey e.1, e.2)).map Prod.fst =
          ((walkPrefixEntries r (radix.toKey q)).map Prod.fst).map
            radix.fromKey := by
        simp [List.map_map]
      rw [hkeys]
      exact (hr.sublist ((List.filter_sublist r).map Prod.fst)).map
        fromKey_injective
    have hfold : (walkPrefixEntries r (radix.toKey q)).foldl
        (fun m e => mapInsert m (radix.fromKey e.1) e.2) [] =
        (walkPrefixEntries r (radix.toKey q)).map
          fun e => (radix.fromKey e.1, e.2) := by
      have h2 := foldl_mapInsert
        ((walkPrefixEntries r (radix.toKey q)).map
          fun e => (radix.fromKey e.1, e.2)) [] hnd
        (fun x hx hcon => by simp at hcon)
      simpa [List.foldl_map] using h2
    rw [hfold]
    cases hw : (walkPrefixEntries r (radix.toKey q)).map
        fun e => (radix.fromKey e.1, e.2) with
    | nil => simp [mapInsert]
    | cons e rest => simp

/-- Witness for C1 at the concrete registry and the wildcard query
`"*.cnn.com"`. -/
theorem c1_witness :
    ((registry.map Prod.fst).Nodup) ∧
      radix.Lookup registry "*.cnn.com" = policyEntries registry "*.cnn.com" :=
  ⟨by decide, c1_lookup_two_phase registry "*.cnn.com" (by decide)⟩

/-- C2: with the registry of section 8 inserted, `Lookup "*.cnn.com"`
returns exactly three entries — `www.cnn.com ↦ A`, `.cnn.com ↦ A` and
`edition.cnn.com ↦ B`. -/
theorem c2_registry_wildcard_query :
    (radix.Lookup registry "*.cnn.com").length = 3 ∧
      findVal (radix.Lookup registry "*.cnn.com") "www.cnn.com" = some cfgA ∧
      findVal (radix.Lookup registry "*.cnn.com") ".cnn.com" = some cfgA ∧
      findVal (radix.Lookup registry "*.cnn.com") "edition.cnn.com" =
        some cfgB := by
  refine ⟨?_, ?_, ?_, ?_⟩ <;> decide

/-- C5: key uniqueness is an invariant — every store reachable by a
sequence of `Insert` calls has no duplicate canonical keys; and inserting
a second config under a pattern that normalizes to an already-stored key
replaces the prior config, so a lookup matching that key returns the
single entry with the newer config. -/
theorem c5_key_uniqueness (ops : List (String × Config)) (p p' : String)
    (c c' : Config) (hpp : radix.toKey p' = radix.toKey p) :
    ((radix.buildStore ops).map Prod.fst).Nodup ∧
      storeFind
        (radix.Insert (radix.Insert (radix.buildStore ops) p c) p' c')
        (radix.toKey p) = some c' ∧
      radix.Lookup
        (radix.Insert (radix.Insert (radix.buildStore ops) p c) p' c')
        (radix.fromKey (radix.toKey p)) =
        [(radix.fromKey (radix.toKey p), c')] := by
  have hnd0 := nodup_keys_buildStore ops
  have hfind : storeFind
      (radix.Insert (radix.Insert (radix.buildStore ops) p c) p' c')
      (radix.toKey p) = some c' := by
    unfold radix.Insert
    rw [hpp]
    exact storeFind_storeInsert_self _ _ _
  have hnd2 : ((radix.Insert (radix.Insert (radix.buildStore ops) p c)
      p' c').map Prod.fst).Nodup := by
    unfold radix.Insert
    exact nodup_keys_storeInsert _ _ (nodup_keys_storeInsert _ _ hnd0)
  refine ⟨hnd0, hfind, ?_⟩
  have hnostar := star_not_mem_toKey p
  have hw := fromKey_no_star hnostar
  have htk := toKey_fromKey hnostar
  simp only [radix.Lookup, hw, Bool.false_eq_true, if_false,
    Bool.not_false, Bool.true_or, if_true, htk]
  rw [lpe_self hnd2 hfind]
  rfl

/-- Witness for C5: re-inserting under `"*.cnn.com"` on an empty registry
replaces config A with config B. -/
theorem c5_witness :
    ((radix.buildStore []).map Prod.fst).Nodup ∧
      storeFind
        (radix.Insert (radix.Insert (radix.buildStore []) "*.cnn.com" cfgA)
          "*.cnn.com" cfgB)
        (radix.toKey "*.cnn.com") = some cfgB ∧
      radix.Lookup
        (radix.Insert (radix.Insert (radix.buildStore []) "*.cnn.com" cfgA)
          "*.cnn.com" cfgB)
        (radix.fromKey (radix.toKey "*.cnn.com")) =
        [(radix.fromKey (radix.toKey "*.cnn.com"), cfgB)] :=
  c5_key_uniqueness [] "*.cnn.com" "*.cnn.com" cfgA cfgB rfl

/-- C7: the two matcher implementations, `radix` and `reverseRadix`, are
observationally equivalent — for every insert sequence and every query the
two `Lookup` functions return equal result maps. -/
theorem c7_implementations_equivalent (ops : List (String × Config))
    (q : String) :
    radix.Lookup (radix.buildStore ops) q =
      reverseRadix.Lookup (reverseRadix.buildStore ops) q :=
  rfl

end Istio
